import Mathlib

/-!
Shallow embedding of the Kaleidoscope chapter-2 front end
(src/Chapter2/toy.cpp) together with proofs about the claims of the
specification.

Conventions of the embedding:
- the character source (stdin) is a `List Char`; `getchar` pops the head and
  returns `none` for EOF;
- the lexer state is the pending character `LastChar` (`Option Char`, with
  `none` standing for EOF) plus the not-yet-read characters;
- the parser state `PState` is the current token `CurTok` plus the stream of
  tokens still to be delivered by the lexer; advancing past an exhausted
  stream keeps yielding the end-of-input token, exactly as `GetTok` keeps
  returning `tok_eof` once `LastChar == EOF`;
- `double NumVal` is kept as the raw literal text `NumStr` (the source
  computes `NumVal = strtod(NumStr)`, a bijective detail irrelevant to every
  claim treated here);
- recursive C++ functions are written with an explicit fuel argument whose
  zero case returns the distinguished result `PRes.out`; every theorem either
  holds for all fuel values or supplies an amply sufficient concrete fuel;
- diagnostics (`LogError`/`LogErrorP` lines on stderr) are collected in a
  `List Diag`, one entry per emitted line.
-/

namespace Toy

/-! ## Character classification (ctype.h, C locale) -/

/-- C `isspace` on the C locale: space, \t, \n, \v, \f, \r. -/
def cIsSpace (c : Char) : Bool :=
  c == ' ' || c == '\t' || c == '\n' || c == '\x0b' || c == '\x0c' || c == '\r'

/-! `isalpha`, `isdigit`, `isalnum` agree with `Char.isAlpha`, `Char.isDigit`,
`Char.isAlphanum` on the C locale. `EOF` (modelled as `Option.none`) satisfies
none of the predicates, matching `isspace(EOF) == 0` etc. in C. -/

/-! ## Tokens

The C++ lexer returns an `int`: a negative code for `tok_eof`, `tok_def`,
`tok_extern`, `tok_identifier`, `tok_number`, or the character itself
(0..255) for anything else, with the globals `IdentifierStr`/`NumVal`
carrying the payload.  The embedding attaches the payload to the token. -/

inductive Tok where
  | eofT
  | kwDef
  | kwExtern
  | ident (s : String)
  | number (s : String)
  | punct (c : Char)
deriving DecidableEq

/-- The global `IdentifierStr` as observed when the current token is an
identifier (its only read sites in the parser). -/
def tokIdentStr : Tok → String
  | .ident s => s
  | _ => ""

/-- The global `NumVal` (kept as literal text) as observed when the current
token is a number. -/
def tokNumStr : Tok → String
  | .number s => s
  | _ => ""

/-- The character stored in `BinaryExprAST::Op` from the `int BinOp = CurTok`
narrowing; only ever reached when `CurTok` is a character token. -/
def tokCh : Tok → Char
  | .punct c => c
  | _ => Char.ofNat 0

/-! ## Lexer: `GetTok` (toy.cpp lines 32-82) -/

/-- `getchar()`: next character of the source, `none` at end of input. -/
def getchar : List Char → Option Char × List Char
  | [] => (none, [])
  | c :: rest => (some c, rest)

/-- The `while(isspace(LastChar)) LastChar = getchar();` loop (lines 36-38). -/
def skipSpacesA : Option Char → List Char → Option Char × List Char
  | none, input => (none, input)
  | some c, input =>
    if cIsSpace c then
      match input with
      | [] => (none, [])
      | d :: rest => skipSpacesA (some d) rest
    else (some c, input)

/-- The identifier loop (lines 41-44):
`while(isalnum((LastChar = getchar()))) IdentifierStr += LastChar;`. -/
def readIdent : String → List Char → String × Option Char × List Char
  | acc, [] => (acc, none, [])
  | acc, c :: rest =>
    if c.isAlphanum then readIdent (acc.push c) rest else (acc, some c, rest)

/-- The number loop (lines 56-59):
`do { NumStr += LastChar; LastChar = getchar(); } while (isdigit || dot)`. -/
def readNumAux (acc : String) (c : Char) (input : List Char) :
    String × Option Char × List Char :=
  match input with
  | [] => (acc.push c, none, [])
  | d :: rest =>
    if d.isDigit || d == '.' then readNumAux (acc.push c) d rest
    else (acc.push c, some d, rest)

/-- The comment loop (lines 66-68):
`do { LastChar = getchar(); } while(LastChar != EOF && != newline)`. -/
def skipComment : List Char → Option Char × List Char
  | [] => (none, [])
  | c :: rest =>
    if c == '\n' || c == '\r' then (some c, rest) else skipComment rest

/-- `GetTok` (lines 32-82), with fuel for the self-recursion after a comment
(line 71).  Note line 47: the lexeme `"def"` is answered with `tok_eof`
(`Tok.eofT`), not with `tok_def` — transcribed faithfully from the source. -/
def GetTokF : Nat → Option Char → List Char → Tok × Option Char × List Char
  | 0, lc, input => (.eofT, lc, input)
  | fuel+1, lc, input =>
    match skipSpacesA lc input with
    | (none, in1) => (.eofT, none, in1)
    | (some c, in1) =>
      if c.isAlpha then
        match readIdent (String.singleton c) in1 with
        | (s, lc2, in2) =>
          if s = "def" then (.eofT, lc2, in2)
          else if s = "extern" then (.kwExtern, lc2, in2)
          else (.ident s, lc2, in2)
      else if c.isDigit || c == '.' then
        match readNumAux "" c in1 with
        | (s, lc2, in2) => (.number s, lc2, in2)
      else if c == '#' then
        match skipComment in1 with
        | (some c2, in2) => GetTokF fuel (some c2) in2
        | (none, in2) => (.eofT, none, in2)
      else
        match getchar in1 with
        | (lc2, in2) => (.punct c, lc2, in2)

/-- `GetTok` with always-sufficient fuel: every recursion step at line 71
strictly consumes source characters, so `input.length + 1` steps never run
out (`GetTokF_fuel_independent` below). -/
def GetTok (lc : Option Char) (input : List Char) :
    Tok × Option Char × List Char :=
  GetTokF (input.length + 1) lc input

theorem skipSpacesA_length :
    ∀ (input : List Char) (lc : Option Char),
      (skipSpacesA lc input).2.length ≤ input.length := by
  intro input
  induction input with
  | nil =>
    intro lc
    cases lc with
    | none => simp [skipSpacesA]
    | some c =>
      simp only [skipSpacesA]
      split <;> simp
  | cons d rest ih =>
    intro lc
    cases lc with
    | none => simp [skipSpacesA]
    | some c =>
      simp only [skipSpacesA]
      split
      · exact Nat.le_trans (ih (some d)) (Nat.le_succ _)
      · simp

theorem skipComment_some_length :
    ∀ (input rest : List Char) (c : Char),
      skipComment input = (some c, rest) → rest.length < input.length := by
  intro input
  induction input with
  | nil => intro rest c h; simp [skipComment] at h
  | cons d tl ih =>
    intro rest c h
    simp only [skipComment] at h
    split at h
    · cases h; simp
    · exact Nat.lt_trans (ih rest c h) (Nat.lt_succ_self _)

/-- The fuel given to `GetTokF` by `GetTok` is always sufficient: any larger
amount computes the same answer, so `GetTok` is the function of the source. -/
theorem GetTokF_fuel_independent :
    ∀ (fuel : Nat) (lc : Option Char) (input : List Char),
      input.length < fuel → GetTokF fuel lc input = GetTok lc input := by
  intro fuel
  induction fuel using Nat.strong_induction_on with
  | _ fuel ih =>
    intro lc input hlen
    cases fuel with
    | zero => exact absurd hlen (Nat.not_lt_zero _)
    | succ f =>
      show GetTokF (f+1) lc input = GetTokF (input.length+1) lc input
      simp only [GetTokF]
      rcases h1 : skipSpacesA lc input with ⟨lc1, in1⟩
      have hin1 : in1.length ≤ input.length := by
        have h := skipSpacesA_length input lc
        rw [h1] at h
        exact h
      cases lc1 with
      | none => rfl
      | some c =>
        dsimp only
        split
        · rfl
        · split
          · rfl
          · split
            · rcases h2 : skipComment in1 with ⟨lc2, in2⟩
              cases lc2 with
              | none => rfl
              | some c2 =>
                have hin2 : in2.length < in1.length :=
                  skipComment_some_length in1 in2 c2 h2
                have e1 : GetTokF f (some c2) in2 = GetTok (some c2) in2 :=
                  ih f (Nat.lt_succ_self f) (some c2) in2 (by omega)
                have e2 :
                    GetTokF input.length (some c2) in2 = GetTok (some c2) in2 :=
                  ih input.length hlen (some c2) in2 (by omega)
                dsimp only
                rw [e1, e2]
            · rfl

/-- Recognizer for the `Def` keyword token (`tok_def`). -/
def isDefKw : Tok → Bool
  | .kwDef => true
  | _ => false

/-- The source lexer can never produce the `Def` keyword token: the branch
that recognizes the lexeme `"def"` (line 46) answers `tok_eof` (line 47). -/
theorem GetTokF_ne_kwDef :
    ∀ (fuel : Nat) (lc : Option Char) (input : List Char),
      isDefKw (GetTokF fuel lc input).1 = false := by
  intro fuel
  induction fuel with
  | zero => intro lc input; rfl
  | succ f ih =>
    intro lc input
    simp only [GetTokF]
    rcases h1 : skipSpacesA lc input with ⟨lc1, in1⟩
    cases lc1 with
    | none => rfl
    | some c =>
      dsimp only
      split
      · split
        · rfl
        · split <;> rfl
      · split
        · rfl
        · split
          · rcases h2 : skipComment in1 with ⟨lc2, in2⟩
            cases lc2 with
            | none => rfl
            | some c2 =>
              dsimp only
              exact ih (some c2) in2
          · rfl

/-- The token produced by the n-th `GetTok` call (0-indexed) starting from a
given lexer state, each call threading the updated state to the next. -/
def nthTok : Nat → Option Char → List Char → Tok
  | 0, lc, input => (GetTok lc input).1
  | n+1, lc, input =>
    match GetTok lc input with
    | (_, lc2, in2) => nthTok n lc2 in2

/-- C1: the claim says lexing the exact identifier lexeme `"def"` yields the
Def keyword token.  The source instead executes `return tok_eof;` at line 47:
on input `"def x"` (initial pending blank, as at program start) `GetTok`
returns the EndOfInput token, and no lexer state whatsoever can ever produce
the Def keyword token, so the `tok_def` dispatch case of `MainLoop` is dead
code.  This contradicts the claim (and the classification table of the spec),
which the spec itself flags as a transcription defect of the source. -/
theorem c1_lexing_def_returns_end_of_input :
    GetTok (some ' ') ("def x".toList) = (.eofT, some ' ', "x".toList)
    ∧ ∀ (fuel : Nat) (lc : Option Char) (input : List Char),
        isDefKw (GetTokF fuel lc input).1 = false :=
  ⟨by decide, GetTokF_ne_kwDef⟩

theorem GetTok_exhausted (input : List Char) :
    GetTok none input = (.eofT, none, input) := by
  simp [GetTok, GetTokF, skipSpacesA]

/-- C9: once the character source is exhausted (`LastChar == EOF`, i.e. the
buffered character is the end-of-input signal), `GetTok` returns EndOfInput
and leaves the whole lexer state untouched, so every subsequent call returns
EndOfInput as well; the second conjunct states this for the n-th subsequent
call. -/
theorem c9_end_of_input_idempotent :
    (∀ input : List Char, GetTok none input = (.eofT, none, input))
    ∧ (∀ (n : Nat) (input : List Char), nthTok n none input = .eofT) := by
  refine ⟨GetTok_exhausted, ?_⟩
  intro n
  induction n with
  | zero =>
    intro input
    show (GetTok none input).1 = .eofT
    rw [GetTok_exhausted]
  | succ k ih =>
    intro input
    show nthTok (k+1) none input = .eofT
    simp only [nthTok, GetTok_exhausted]
    exact ih input

/-! ## AST model (toy.cpp lines 88-157)

`ExprAST` and its subclasses become a closed sum; `NumberExprAST` keeps the
literal text whose `strtod` image the source stores. -/

inductive Expr where
  | num (s : String)
  | var (name : String)
  | binary (op : Char) (lhs rhs : Expr)
  | call (callee : String) (args : List Expr)

/-- `PrototypeAST`: function name and parameter names. -/
structure Prototype where
  name : String
  args : List String
deriving DecidableEq

/-- `FunctionAST`: a prototype plus a single-expression body. -/
structure FunctionAST where
  proto : Prototype
  body : Expr

/-! ## Parser state (toy.cpp lines 163-164)

`CurTok` plus the tokens the lexer will still deliver.  `GetNextToken`
(`CurTok = GetTok()`) becomes `advance`; when the stream is exhausted the
lexer keeps answering `tok_eof` (see `c9_end_of_input_idempotent`), hence
the first equation. -/

structure PState where
  cur : Tok
  rest : List Tok
deriving DecidableEq

def advance : PState → PState
  | ⟨_, []⟩ => ⟨.eofT, []⟩
  | ⟨_, t :: ts⟩ => ⟨t, ts⟩

/-! ## Precedence table (toy.cpp lines 170-178) -/

/-- `std::map<char, int> BinopPrecedence` as an association list;
`operator[]` on an absent key default-constructs the value `0`, which
`mapLookup` reproduces. -/
def PrecTab : Type := List (Char × Int)

def mapLookup (m : PrecTab) (c : Char) : Int :=
  match List.find? (fun p => p.1 == c) m with
  | some p => p.2
  | none => 0

/-- The state of `BinopPrecedence` at program start: `main` (lines 415-417)
is an empty stub that inserts nothing, so the map is default-constructed and
empty. -/
def initialBinopPrecedence : PrecTab := []

/-- Modelled from the spec: the Precedence Table is described as "seeded with
defaults for `+ - * <`" (spec section 2), every entry mapping to a strictly
positive integer priority (spec section 3); the stub `main` of the source never
performs the seeding and the spec gives no numeric values, so the canonical
Kaleidoscope defaults are used, with `*` binding tightest. -/
def seededBinopPrecedence : PrecTab :=
  [('<', 10), ('+', 20), ('-', 20), ('*', 40)]

/-- `GetTokPrecedence` (lines 171-178).  The token codes of `tok_eof`,
`tok_def`, `tok_extern`, `tok_identifier`, `tok_number` are negative, so
`isascii(CurTok)` fails for every non-character token and the function
returns -1; for a character token it returns the mapped precedence when that
is strictly positive and -1 otherwise. -/
def GetTokPrecedence (prec : PrecTab) (t : Tok) : Int :=
  match t with
  | .punct c =>
    if c.toNat ≤ 127 then
      if mapLookup prec c ≤ 0 then -1 else mapLookup prec c
    else -1
  | _ => -1

/-! ## Parse results and diagnostics

Parse functions return `nullptr` on failure after `LogError`/`LogErrorP`
printed exactly one line on stderr (lines 181-188).  `PRes.out` is the
fuel-exhaustion artifact of the embedding; it never occurs under the fuel
the driver supplies and no claim depends on it. The emitted diagnostic lines
are collected in source order. -/

inductive PRes (α : Type) where
  | ok (a : α)
  | fail
  | out
deriving DecidableEq

def PRes.isOk {α : Type} : PRes α → Bool
  | .ok _ => true
  | _ => false

/-- The six diagnostic lines the parser can print, one constructor per
`LogError`/`LogErrorP` call site. -/
inductive Diag where
  | expectedRParen
  | expectedRParenOrComma
  | unknownTokenExpectingExpr
  | expectedFnNameInProto
  | expectedLParenInProto
  | expectedRParenInProto
deriving DecidableEq

/-! ## Parser (toy.cpp lines 190-354)

Transcribed control flow, including the two defects of the source:
- `ParseBinOpRHS` line 270 calls `GetTokPrecedence()` where its comment says
  "eat binop"; that call does not advance the token stream, so the operator
  token is still current when `ParsePrimary` runs;
- `ParseDefinition` line 333 recursively calls `ParseDefinition()` for the
  body instead of `ParseExpression()`; moreover the value it would pass to
  the `FunctionAST` constructor there is a `FunctionAST`, not the `ExprAST`
  the constructor requires, so the success branch of the inner call is
  ill-typed in the source and unreachable (the inner call can never succeed,
  see `ParseDefinition_never_ok`); the embedding makes that dead branch a
  failure. -/

/-- `ParseNumberExpr` (lines 193-197). -/
def ParseNumberExpr (σ : PState) : PRes Expr × PState × List Diag :=
  (.ok (.num (tokNumStr σ.cur)), advance σ, [])

mutual

/-- `ParseExpression` (lines 292-297). -/
def ParseExpression : Nat → PrecTab → PState → PRes Expr × PState × List Diag
  | 0, _, σ => (.out, σ, [])
  | fuel+1, prec, σ =>
    match ParsePrimary fuel prec σ with
    | (.ok lhs, σ1, d1) =>
      match ParseBinOpRHS fuel prec 0 lhs σ1 with
      | (r2, σ2, d2) => (r2, σ2, d1 ++ d2)
    | (.fail, σ1, d1) => (.fail, σ1, d1)
    | (.out, σ1, d1) => (.out, σ1, d1)

/-- `ParsePrimary` (lines 245-252). -/
def ParsePrimary : Nat → PrecTab → PState → PRes Expr × PState × List Diag
  | 0, _, σ => (.out, σ, [])
  | fuel+1, prec, σ =>
    match σ.cur with
    | .ident _ => ParseIdentifierExpr fuel prec σ
    | .number _ => ParseNumberExpr σ
    | .punct '(' => ParseParenExpr fuel prec σ
    | _ => (.fail, σ, [.unknownTokenExpectingExpr])

/-- `ParseParenExpr` (lines 200-208): eat `(`, parse an expression, require
and eat `)`. -/
def ParseParenExpr : Nat → PrecTab → PState → PRes Expr × PState × List Diag
  | 0, _, σ => (.out, σ, [])
  | fuel+1, prec, σ =>
    match ParseExpression fuel prec (advance σ) with
    | (.ok v, σ2, d1) =>
      if σ2.cur = .punct ')' then (.ok v, advance σ2, d1)
      else (.fail, σ2, d1 ++ [.expectedRParen])
    | (.fail, σ2, d1) => (.fail, σ2, d1)
    | (.out, σ2, d1) => (.out, σ2, d1)

/-- `ParseIdentifierExpr` (lines 213-239): a bare Variable unless the token
after the identifier is `(`, in which case a Call with a comma-separated
argument list. -/
def ParseIdentifierExpr :
    Nat → PrecTab → PState → PRes Expr × PState × List Diag
  | 0, _, σ => (.out, σ, [])
  | fuel+1, prec, σ =>
    if (advance σ).cur ≠ .punct '(' then
      (.ok (.var (tokIdentStr σ.cur)), advance σ, [])
    else if (advance (advance σ)).cur = .punct ')' then
      (.ok (.call (tokIdentStr σ.cur) []), advance (advance (advance σ)), [])
    else
      match ParseCallArgs fuel prec [] (advance (advance σ)) with
      | (.ok args, σ3, d1) => (.ok (.call (tokIdentStr σ.cur) args), advance σ3, d1)
      | (.fail, σ3, d1) => (.fail, σ3, d1)
      | (.out, σ3, d1) => (.out, σ3, d1)

/-- The argument-list loop of `ParseIdentifierExpr` (lines 224-234): parse an
expression, stop at `)`, demand `,` otherwise, eat the `,` and repeat. -/
def ParseCallArgs :
    Nat → PrecTab → List Expr → PState → PRes (List Expr) × PState × List Diag
  | 0, _, _, σ => (.out, σ, [])
  | fuel+1, prec, args, σ =>
    match ParseExpression fuel prec σ with
    | (.ok e, σ1, d1) =>
      if σ1.cur = .punct ')' then (.ok (args ++ [e]), σ1, d1)
      else if σ1.cur ≠ .punct ',' then (.fail, σ1, d1 ++ [.expectedRParenOrComma])
      else
        match ParseCallArgs fuel prec (args ++ [e]) (advance σ1) with
        | (r2, σ2, d2) => (r2, σ2, d1 ++ d2)
    | (.fail, σ1, d1) => (.fail, σ1, d1)
    | (.out, σ1, d1) => (.out, σ1, d1)

/-- `ParseBinOpRHS` (lines 256-288).  Faithful to the source: after deciding
the current token is a binary operator it executes `GetTokPrecedence();`
(line 270, a no-op on the stream) instead of consuming the operator, so
`ParsePrimary` then runs with the operator token still current. -/
def ParseBinOpRHS :
    Nat → PrecTab → Int → Expr → PState → PRes Expr × PState × List Diag
  | 0, _, _, _, σ => (.out, σ, [])
  | fuel+1, prec, exprPrec, lhs, σ =>
    if GetTokPrecedence prec σ.cur < exprPrec then (.ok lhs, σ, [])
    else
      match ParsePrimary fuel prec σ with
      | (.ok rhs, σ1, d1) =>
        if GetTokPrecedence prec σ.cur < GetTokPrecedence prec σ1.cur then
          match ParseBinOpRHS fuel prec (GetTokPrecedence prec σ.cur + 1) rhs σ1 with
          | (.ok rhs2, σ2, d2) =>
            match ParseBinOpRHS fuel prec exprPrec (.binary (tokCh σ.cur) lhs rhs2) σ2 with
            | (r3, σ3, d3) => (r3, σ3, d1 ++ (d2 ++ d3))
          | (.fail, σ2, d2) => (.fail, σ2, d1 ++ d2)
          | (.out, σ2, d2) => (.out, σ2, d1 ++ d2)
        else
          match ParseBinOpRHS fuel prec exprPrec (.binary (tokCh σ.cur) lhs rhs) σ1 with
          | (r2, σ2, d2) => (r2, σ2, d1 ++ d2)
      | (.fail, σ1, d1) => (.fail, σ1, d1)
      | (.out, σ1, d1) => (.out, σ1, d1)

end

/-- The parameter-name loop of `ParsePrototype` (lines 315-317):
`while(GetNextToken() == tok_identifier) ArgNames.push_back(IdentifierStr);`.
The loop always advances first, so it is a function of the not-yet-delivered
tokens: an exhausted stream advances to `tok_eof`, which stops the loop. -/
def protoArgsLoop : List String → List Tok → List String × PState
  | acc, [] => (acc, ⟨.eofT, []⟩)
  | acc, t :: ts =>
    match t with
    | .ident s => protoArgsLoop (acc ++ [s]) ts
    | _ => (acc, ⟨t, ts⟩)

/-- `ParsePrototype` (lines 301-325). -/
def ParsePrototype (σ : PState) : PRes Prototype × PState × List Diag :=
  match σ.cur with
  | .ident fnName =>
    if (advance σ).cur ≠ .punct '(' then
      (.fail, advance σ, [.expectedLParenInProto])
    else
      match protoArgsLoop [] (advance σ).rest with
      | (argNames, σ2) =>
        if σ2.cur ≠ .punct ')' then (.fail, σ2, [.expectedRParenInProto])
        else (.ok ⟨fnName, argNames⟩, advance σ2, [])
  | _ => (.fail, σ, [.expectedFnNameInProto])

/-- `ParseDefinition` (lines 328-337): eat `def`, parse a prototype, then —
the second defect of the source — recursively call `ParseDefinition` itself
for the body.  The success branch of the inner call passes a `FunctionAST`
where the `FunctionAST` constructor needs an `ExprAST` body; it is ill-typed
in the source and unreachable, and modeled as a failure. -/
def ParseDefinition : Nat → PrecTab → PState → PRes FunctionAST × PState × List Diag
  | 0, _, σ => (.out, σ, [])
  | fuel+1, prec, σ =>
    match ParsePrototype (advance σ) with
    | (.ok _, σ2, d1) =>
      match ParseDefinition fuel prec σ2 with
      | (.ok _, σ3, d2) => (.fail, σ3, d1 ++ d2)
      | (.fail, σ3, d2) => (.fail, σ3, d1 ++ d2)
      | (.out, σ3, d2) => (.out, σ3, d1 ++ d2)
    | (.fail, σ2, d1) => (.fail, σ2, d1)
    | (.out, σ2, d1) => (.out, σ2, d1)

/-- `ParseExtern` (lines 340-343): eat `extern`, parse a prototype. -/
def ParseExtern (σ : PState) : PRes Prototype × PState × List Diag :=
  ParsePrototype (advance σ)

/-- `ParseTopLevelExpr` (lines 346-354): wrap a bare expression in an
anonymous zero-parameter function. -/
def ParseTopLevelExpr (fuel : Nat) (prec : PrecTab) (σ : PState) :
    PRes FunctionAST × PState × List Diag :=
  match ParseExpression fuel prec σ with
  | (.ok e, σ1, d1) => (.ok ⟨⟨"__anon_expr", []⟩, e⟩, σ1, d1)
  | (.fail, σ1, d1) => (.fail, σ1, d1)
  | (.out, σ1, d1) => (.out, σ1, d1)

/-! ## Top-level driver (toy.cpp lines 360-409)

The C++ parse functions have no fuel; the driver of the embedding hands each
top-level parse an amply sufficient amount (each recursion level of the
parser either consumes a token or moves down the fixed five-level grammar,
so four times the stream length plus a constant covers every run). -/

def driverFuel (σ : PState) : Nat := 4 * σ.rest.length + 16

/-- `HandleDefinition` (lines 360-367): on failure, skip one token for error
recovery. -/
def HandleDefinition (prec : PrecTab) (σ : PState) : PState :=
  match ParseDefinition (driverFuel σ) prec σ with
  | (.ok _, σ1, _) => σ1
  | (.fail, σ1, _) => advance σ1
  | (.out, σ1, _) => advance σ1

/-- `HandleExtern` (lines 369-376). -/
def HandleExtern (σ : PState) : PState :=
  match ParseExtern σ with
  | (.ok _, σ1, _) => σ1
  | (.fail, σ1, _) => advance σ1
  | (.out, σ1, _) => advance σ1

/-- `HandleTopLevelExpression` (lines 378-386). -/
def HandleTopLevelExpression (prec : PrecTab) (σ : PState) : PState :=
  match ParseTopLevelExpr (driverFuel σ) prec σ with
  | (.ok _, σ1, _) => σ1
  | (.fail, σ1, _) => advance σ1
  | (.out, σ1, _) => advance σ1

/-- `MainLoop` (lines 389-409), with fuel counting loop iterations; `none`
is the fuel-exhaustion artifact, shown unreachable for any fuel larger than
`pMeasure` of the state (`c5_driver_single_token_recovery_and_progress`). -/
def MainLoop : Nat → PrecTab → PState → Option PState
  | 0, _, _ => none
  | fuel+1, prec, σ =>
    if σ.cur = .eofT then some σ
    else if σ.cur = .punct ';' then MainLoop fuel prec (advance σ)
    else if σ.cur = .kwDef then MainLoop fuel prec (HandleDefinition prec σ)
    else if σ.cur = .kwExtern then MainLoop fuel prec (HandleExtern σ)
    else MainLoop fuel prec (HandleTopLevelExpression prec σ)

/-- Progress measure on the parser state: tokens still to be delivered plus
one for the current token unless it is already end-of-input. -/
def pMeasure (σ : PState) : Nat :=
  σ.rest.length + (if σ.cur = .eofT then 0 else 1)

/-- C4: the claim says that at the start of a parsing session the precedence
table maps each of `+ - * <` to a strictly positive precedence.  In the
source, `main` (lines 415-417) is an empty stub: it never seeds
`BinopPrecedence` (and never runs `MainLoop`), so at program start the map
is empty and `GetTokPrecedence` answers -1 for all four operators — each is
rejected as a binary operator, contradicting the claim; the seeding the spec
describes exists nowhere in the source. -/
theorem c4_startup_precedence_table_is_empty :
    GetTokPrecedence initialBinopPrecedence (.punct '+') = -1
    ∧ GetTokPrecedence initialBinopPrecedence (.punct '-') = -1
    ∧ GetTokPrecedence initialBinopPrecedence (.punct '*') = -1
    ∧ GetTokPrecedence initialBinopPrecedence (.punct '<') = -1 := by
  refine ⟨rfl, rfl, rfl, rfl⟩

/-- C2: the claim says parsing the tokens of `"1+2*3"` (under the default
precedence table) yields `Binary(+, 1, Binary(*, 2, 3))` and consumes all
five tokens.  In the source, `ParseBinOpRHS` never consumes the operator —
line 270 calls `GetTokPrecedence()` where its comment says "eat binop" — so
`ParsePrimary` runs with `+` still current and fails: with the seeded table
the whole parse fails with one diagnostic and consumes only the first
operand (first conjunct).  With the table the program actually starts with
(empty, see C4) the `+` is not even recognized as an operator and the parse
stops after `Number(1)`, leaving `+ 2 * 3` unconsumed (second conjunct).
Either way the claimed AST is never produced. -/
theorem c2_binop_rhs_never_consumes_operator :
    ParseExpression 32 seededBinopPrecedence
        ⟨.number "1", [.punct '+', .number "2", .punct '*', .number "3"]⟩
      = (.fail, ⟨.punct '+', [.number "2", .punct '*', .number "3"]⟩,
         [.unknownTokenExpectingExpr])
    ∧ ParseExpression 32 initialBinopPrecedence
        ⟨.number "1", [.punct '+', .number "2", .punct '*', .number "3"]⟩
      = (.ok (.num "1"), ⟨.punct '+', [.number "2", .punct '*', .number "3"]⟩,
         []) := by
  refine ⟨rfl, rfl⟩

/-- C3: the claim says parsing `def foo(x y) x+y` yields a Function with
prototype `("foo", ["x","y"])` and body `Binary(+, x, y)`.  In the source,
`ParseDefinition` parses the prototype and then recursively calls itself
(line 333) instead of `ParseExpression`, so the body tokens `x + y` are
parsed as another definition: the inner call eats `x` as if it were `def`,
demands a prototype, and fails on `+` with "Expected function name in
prototype"; the whole definition parse returns failure, never a Function.
(Independently, the lexer never even delivers the Def token, see C1.) -/
theorem c3_definition_body_reparsed_as_definition :
    ParseDefinition 32 seededBinopPrecedence
        ⟨.kwDef, [.ident "foo", .punct '(', .ident "x", .ident "y", .punct ')',
                  .ident "x", .punct '+', .ident "y"]⟩
      = (.fail, ⟨.punct '+', [.ident "y"]⟩, [.expectedFnNameInProto]) := by
  exact rfl

/-- C7: parsing the token stream of `"extern sin(x)"` returns the Prototype
node `("sin", ["x"])` with the parameter names in source order — and by the
return type of `ParseExtern` it is a `Prototype`, not a `FunctionAST`. -/
theorem c7_extern_sin_yields_prototype :
    ParseExtern ⟨.kwExtern, [.ident "sin", .punct '(', .ident "x", .punct ')']⟩
      = (.ok ⟨"sin", ["x"]⟩, ⟨.eofT, []⟩, []) := by
  exact rfl

/-- Character tokens are the ones the lexer returns as their own code point
(0..255); the named token kinds all have negative codes. -/
def isCharTok : Tok → Bool
  | .punct _ => true
  | _ => false

/-- C10: for every current token and any state of the precedence table, the
precedence lookup returns -1 or a strictly positive value — never 0 — and it
returns -1 for every non-character token (EndOfInput, keywords, Identifier,
Number); consequently `ParseBinOpRHS` called with a non-negative threshold
(its only call sites pass 0 or a positive bound) immediately returns the
accumulated left-hand side when such a token is current. -/
theorem c10_precedence_lookup_never_zero :
    ∀ (prec : PrecTab) (t : Tok),
      (GetTokPrecedence prec t = -1 ∨ 0 < GetTokPrecedence prec t)
      ∧ (isCharTok t = false → GetTokPrecedence prec t = -1)
      ∧ (∀ (fuel : Nat) (exprPrec : Int) (lhs : Expr) (σ : PState),
          σ.cur = t → isCharTok t = false → 0 ≤ exprPrec →
          ParseBinOpRHS (fuel+1) prec exprPrec lhs σ = (.ok lhs, σ, [])) := by
  intro prec t
  have key : isCharTok t = false → GetTokPrecedence prec t = -1 := by
    intro h
    cases t with
    | punct c => simp [isCharTok] at h
    | eofT => rfl
    | kwDef => rfl
    | kwExtern => rfl
    | ident s => rfl
    | number s => rfl
  refine ⟨?_, key, ?_⟩
  · cases t with
    | punct c =>
      simp only [GetTokPrecedence]
      split
      · split
        · exact Or.inl rfl
        · rename_i h2
          exact Or.inr (by omega)
      · exact Or.inl rfl
    | eofT => exact Or.inl rfl
    | kwDef => exact Or.inl rfl
    | kwExtern => exact Or.inl rfl
    | ident s => exact Or.inl rfl
    | number s => exact Or.inl rfl
  · intro fuel exprPrec lhs σ hcur hchar hep
    have hlt : GetTokPrecedence prec σ.cur < exprPrec := by
      rw [hcur, key hchar]
      omega
    simp only [ParseBinOpRHS]
    rw [if_pos hlt]

/-- Witness for C10 at the EndOfInput token and an empty table. -/
theorem c10_witness :
    GetTokPrecedence [] .eofT = -1
    ∧ ParseBinOpRHS 7 [] 0 (.num "1") ⟨.eofT, []⟩
        = (.ok (.num "1"), ⟨.eofT, []⟩, []) :=
  ⟨(c10_precedence_lookup_never_zero [] .eofT).2.1 rfl,
   (c10_precedence_lookup_never_zero [] .eofT).2.2 6 0 (.num "1")
     ⟨.eofT, []⟩ rfl rfl (by omega)⟩

/-- C8: after an identifier, the parse result is a Call exactly when the next
token is `(`: if it is not `(`, the result is the bare Variable (first
conjunct, any fuel, any table); if it is `(`, then any successful result is a
Call of that identifier (second conjunct) — a failure inside the argument
list yields no node at all, never a Variable.  Concretely, the tokens of
`"foo(1,2)"` parse to `Call("foo", [Number(1), Number(2)])` with the
arguments in source order, and `"foo"` alone parses to `Variable("foo")`. -/
theorem c8_identifier_call_iff_lparen :
    (∀ (prec : PrecTab) (σ : PState) (name : String) (fuel : Nat),
        σ.cur = .ident name → (advance σ).cur ≠ .punct '(' →
        ParseIdentifierExpr (fuel+1) prec σ = (.ok (.var name), advance σ, []))
    ∧ (∀ (prec : PrecTab) (σ : PState) (name : String) (fuel : Nat) (e : Expr),
        σ.cur = .ident name → (advance σ).cur = .punct '(' →
        (ParseIdentifierExpr fuel prec σ).1 = .ok e →
        ∃ args, e = .call name args)
    ∧ ParseIdentifierExpr 32 seededBinopPrecedence
        ⟨.ident "foo", [.punct '(', .number "1", .punct ',', .number "2", .punct ')']⟩
      = (.ok (.call "foo" [.num "1", .num "2"]), ⟨.eofT, []⟩, [])
    ∧ ParseIdentifierExpr 32 seededBinopPrecedence ⟨.ident "foo", []⟩
      = (.ok (.var "foo"), ⟨.eofT, []⟩, []) := by
  refine ⟨?_, ?_, rfl, rfl⟩
  · intro prec σ name fuel hcur hnp
    simp only [ParseIdentifierExpr, hcur, tokIdentStr]
    rw [if_pos hnp]
  · intro prec σ name fuel e hcur hpar
    cases fuel with
    | zero =>
      intro h
      simp [ParseIdentifierExpr] at h
    | succ k =>
      simp only [ParseIdentifierExpr, hcur, tokIdentStr]
      rw [if_neg (by simp [hpar])]
      split
      · intro h
        refine ⟨[], ?_⟩
        cases h
        rfl
      · split
        · rename_i args σ3 d1 heq
          intro h
          refine ⟨args, ?_⟩
          cases h
          rfl
        · intro h
          simp at h
        · intro h
          simp at h

/-- Witness for C8 at a state whose identifier is followed by `!`. -/
theorem c8_witness :
    ParseIdentifierExpr 3 seededBinopPrecedence ⟨.ident "bar", [.punct '!']⟩
      = (.ok (.var "bar"), ⟨.punct '!', []⟩, []) :=
  c8_identifier_call_iff_lparen.1 seededBinopPrecedence
    ⟨.ident "bar", [.punct '!']⟩ "bar" 2 rfl (by decide)

/-! ## Progress of the parser and the driver (for C5) -/

theorem pMeasure_advance_le (σ : PState) : pMeasure (advance σ) ≤ pMeasure σ := by
  rcases σ with ⟨c, rest⟩
  cases rest with
  | nil => simp [advance, pMeasure]
  | cons t ts =>
    simp only [advance, pMeasure, List.length_cons]
    split <;> split <;> omega

theorem pMeasure_advance_lt (σ : PState) (h : σ.cur ≠ .eofT) :
    pMeasure (advance σ) < pMeasure σ := by
  rcases σ with ⟨c, rest⟩
  simp only [PState.cur] at h
  cases rest with
  | nil =>
    simp only [advance, pMeasure, List.length_nil]
    rw [if_neg h]
    simp
  | cons t ts =>
    simp only [advance, pMeasure, List.length_cons]
    rw [if_neg h]
    split <;> omega

/-- Each parse step leaves the measure no larger; `ParsePrimary` and
`ParseExpression` either strictly decrease it or return unsuccessfully with
the state untouched; `ParseParenExpr` and `ParseIdentifierExpr` (which eat
their first token unconditionally when they have fuel) stay below the
once-advanced state. -/
theorem parser_measure :
    ∀ fuel : Nat,
      (∀ (prec : PrecTab) (exprPrec : Int) (lhs : Expr) (σ : PState),
        pMeasure (ParseBinOpRHS fuel prec exprPrec lhs σ).2.1 ≤ pMeasure σ)
    ∧ (∀ (prec : PrecTab) (args : List Expr) (σ : PState),
        pMeasure (ParseCallArgs fuel prec args σ).2.1 ≤ pMeasure σ)
    ∧ (∀ (prec : PrecTab) (σ : PState),
        pMeasure (ParseParenExpr fuel prec σ).2.1 ≤ pMeasure σ
        ∧ (0 < fuel →
            pMeasure (ParseParenExpr fuel prec σ).2.1 ≤ pMeasure (advance σ)))
    ∧ (∀ (prec : PrecTab) (σ : PState),
        pMeasure (ParseIdentifierExpr fuel prec σ).2.1 ≤ pMeasure σ
        ∧ (0 < fuel →
            pMeasure (ParseIdentifierExpr fuel prec σ).2.1 ≤ pMeasure (advance σ)))
    ∧ (∀ (prec : PrecTab) (σ : PState),
        pMeasure (ParsePrimary fuel prec σ).2.1 < pMeasure σ
        ∨ ((ParsePrimary fuel prec σ).2.1 = σ
            ∧ (ParsePrimary fuel prec σ).1.isOk = false))
    ∧ (∀ (prec : PrecTab) (σ : PState),
        pMeasure (ParseExpression fuel prec σ).2.1 < pMeasure σ
        ∨ ((ParseExpression fuel prec σ).2.1 = σ
            ∧ (ParseExpression fuel prec σ).1.isOk = false)) := by
  intro fuel
  induction fuel with
  | zero =>
    refine ⟨fun prec ep lhs σ => le_refl _,
            fun prec args σ => le_refl _,
            fun prec σ => ⟨le_refl _, fun h => absurd h (by omega)⟩,
            fun prec σ => ⟨le_refl _, fun h => absurd h (by omega)⟩,
            fun prec σ => Or.inr ⟨rfl, rfl⟩,
            fun prec σ => Or.inr ⟨rfl, rfl⟩⟩
  | succ fuel ih =>
    obtain ⟨ihB, ihA, ihP, ihI, ihPr, ihE⟩ := ih
    have stepPrim : ∀ (prec : PrecTab) (σ : PState),
        pMeasure (ParsePrimary fuel prec σ).2.1 ≤ pMeasure σ := by
      intro prec σ
      rcases ihPr prec σ with h | ⟨heq, _⟩
      · exact le_of_lt h
      · rw [heq]
    have stepExpr : ∀ (prec : PrecTab) (σ : PState),
        pMeasure (ParseExpression fuel prec σ).2.1 ≤ pMeasure σ := by
      intro prec σ
      rcases ihE prec σ with h | ⟨heq, _⟩
      · exact le_of_lt h
      · rw [heq]
    refine ⟨?_, ?_, ?_, ?_, ?_, ?_⟩
    · -- ParseBinOpRHS
      intro prec ep lhs σ
      simp only [ParseBinOpRHS]
      split
      · simp
      · rcases hp : ParsePrimary fuel prec σ with ⟨r1, σ1, d1⟩
        have h1 : pMeasure σ1 ≤ pMeasure σ := by
          have := stepPrim prec σ; rw [hp] at this; exact this
        cases r1 with
        | ok rhs =>
          dsimp only
          split
          · rcases hb1 :
                ParseBinOpRHS fuel prec (GetTokPrecedence prec σ.cur + 1) rhs σ1
              with ⟨r2, σ2, d2⟩
            have h2 : pMeasure σ2 ≤ pMeasure σ1 := by
              have := ihB prec (GetTokPrecedence prec σ.cur + 1) rhs σ1
              rw [hb1] at this; exact this
            cases r2 with
            | ok rhs2 =>
              dsimp only
              rcases hb2 :
                  ParseBinOpRHS fuel prec ep (.binary (tokCh σ.cur) lhs rhs2) σ2
                with ⟨r3, σ3, d3⟩
              have h3 : pMeasure σ3 ≤ pMeasure σ2 := by
                have := ihB prec ep (.binary (tokCh σ.cur) lhs rhs2) σ2
                rw [hb2] at this; exact this
              dsimp only
              omega
            | fail => dsimp only; omega
            | out => dsimp only; omega
          · rcases hb :
                ParseBinOpRHS fuel prec ep (.binary (tokCh σ.cur) lhs rhs) σ1
              with ⟨r2, σ2, d2⟩
            have h2 : pMeasure σ2 ≤ pMeasure σ1 := by
              have := ihB prec ep (.binary (tokCh σ.cur) lhs rhs) σ1
              rw [hb] at this; exact this
            dsimp only
            omega
        | fail => dsimp only; exact h1
        | out => dsimp only; exact h1
    · -- ParseCallArgs
      intro prec args σ
      simp only [ParseCallArgs]
      rcases he : ParseExpression fuel prec σ with ⟨r1, σ1, d1⟩
      have h1 : pMeasure σ1 ≤ pMeasure σ := by
        have := stepExpr prec σ; rw [he] at this; exact this
      cases r1 with
      | ok e =>
        dsimp only
        split
        · exact h1
        · split
          · exact h1
          · rcases ha : ParseCallArgs fuel prec (args ++ [e]) (advance σ1)
              with ⟨r2, σ2, d2⟩
            have h2 : pMeasure σ2 ≤ pMeasure (advance σ1) := by
              have := ihA prec (args ++ [e]) (advance σ1)
              rw [ha] at this; exact this
            have h3 := pMeasure_advance_le σ1
            dsimp only
            omega
      | fail => dsimp only; exact h1
      | out => dsimp only; exact h1
    · -- ParseParenExpr
      intro prec σ
      have key : pMeasure (ParseParenExpr (fuel+1) prec σ).2.1
          ≤ pMeasure (advance σ) := by
        simp only [ParseParenExpr]
        rcases he : ParseExpression fuel prec (advance σ) with ⟨r1, σ2, d1⟩
        have h1 : pMeasure σ2 ≤ pMeasure (advance σ) := by
          have := stepExpr prec (advance σ); rw [he] at this; exact this
        cases r1 with
        | ok v =>
          dsimp only
          split
          · have := pMeasure_advance_le σ2
            dsimp only
            omega
          · dsimp only; exact h1
        | fail => dsimp only; exact h1
        | out => dsimp only; exact h1
      exact ⟨le_trans key (pMeasure_advance_le σ), fun _ => key⟩
    · -- ParseIdentifierExpr
      intro prec σ
      have key : pMeasure (ParseIdentifierExpr (fuel+1) prec σ).2.1
          ≤ pMeasure (advance σ) := by
        simp only [ParseIdentifierExpr]
        split
        · exact le_refl _
        · split
          · have a1 := pMeasure_advance_le (advance (advance σ))
            have a2 := pMeasure_advance_le (advance σ)
            dsimp only
            omega
          · rcases ha : ParseCallArgs fuel prec [] (advance (advance σ))
              with ⟨r1, σ3, d1⟩
            have h1 : pMeasure σ3 ≤ pMeasure (advance (advance σ)) := by
              have := ihA prec [] (advance (advance σ))
              rw [ha] at this; exact this
            have a2 := pMeasure_advance_le (advance σ)
            cases r1 with
            | ok args =>
              have := pMeasure_advance_le σ3
              dsimp only
              omega
            | fail => dsimp only; omega
            | out => dsimp only; omega
      exact ⟨le_trans key (pMeasure_advance_le σ), fun _ => key⟩
    · -- ParsePrimary
      intro prec σ
      simp only [ParsePrimary]
      split
      · -- identifier
        rename_i s hcur
        have hne : σ.cur ≠ .eofT := by rw [hcur]; simp
        cases fuel with
        | zero => exact Or.inr ⟨rfl, rfl⟩
        | succ k =>
          left
          have := (ihI prec σ).2 (by omega)
          have hadv := pMeasure_advance_lt σ hne
          omega
      · -- number
        rename_i s hcur
        have hne : σ.cur ≠ .eofT := by rw [hcur]; simp
        left
        have hadv := pMeasure_advance_lt σ hne
        simp only [ParseNumberExpr]
        exact hadv
      · -- paren
        rename_i hcur
        have hne : σ.cur ≠ .eofT := by rw [hcur]; simp
        cases fuel with
        | zero => exact Or.inr ⟨rfl, rfl⟩
        | succ k =>
          left
          have := (ihP prec σ).2 (by omega)
          have hadv := pMeasure_advance_lt σ hne
          omega
      · -- default
        exact Or.inr ⟨rfl, rfl⟩
    · -- ParseExpression
      intro prec σ
      simp only [ParseExpression]
      rcases hp : ParsePrimary fuel prec σ with ⟨r1, σ1, d1⟩
      rcases ihPr prec σ with hlt | ⟨heq, hok⟩
      · rw [hp] at hlt
        have hlt1 : pMeasure σ1 < pMeasure σ := hlt
        cases r1 with
        | ok lhs =>
          dsimp only
          rcases hb : ParseBinOpRHS fuel prec 0 lhs σ1 with ⟨r2, σ2, d2⟩
          have h2 : pMeasure σ2 ≤ pMeasure σ1 := by
            have := ihB prec 0 lhs σ1; rw [hb] at this; exact this
          left
          dsimp only
          omega
        | fail => left; exact hlt
        | out => left; exact hlt
      · rw [hp] at heq hok
        cases r1 with
        | ok lhs => simp [PRes.isOk] at hok
        | fail => exact Or.inr ⟨heq, rfl⟩
        | out => exact Or.inr ⟨heq, rfl⟩

theorem rest_le_pMeasure (σ : PState) : σ.rest.length ≤ pMeasure σ := by
  unfold pMeasure
  split <;> omega

theorem protoArgsLoop_measure :
    ∀ (rest : List Tok) (acc : List String),
      pMeasure (protoArgsLoop acc rest).2 ≤ rest.length := by
  intro rest
  induction rest with
  | nil => intro acc; simp [protoArgsLoop, pMeasure]
  | cons t ts ih =>
    intro acc
    simp only [protoArgsLoop]
    split
    · exact le_trans (ih _) (Nat.le_succ _)
    · simp only [pMeasure, List.length_cons]
      split <;> omega

theorem ParsePrototype_measure (σ : PState) :
    pMeasure (ParsePrototype σ).2.1 ≤ pMeasure σ := by
  simp only [ParsePrototype]
  split
  · split
    · exact pMeasure_advance_le σ
    · rcases hl : protoArgsLoop [] (advance σ).rest with ⟨argNames, σ2⟩
      have h1 : pMeasure σ2 ≤ (advance σ).rest.length := by
        have := protoArgsLoop_measure (advance σ).rest []
        rw [hl] at this; exact this
      have h2 := rest_le_pMeasure (advance σ)
      have h3 := pMeasure_advance_le σ
      dsimp only
      split
      · dsimp only; omega
      · have h4 := pMeasure_advance_le σ2
        dsimp only
        omega
  · exact le_refl _

theorem ParseDefinition_measure :
    ∀ (fuel : Nat) (prec : PrecTab) (σ : PState),
      pMeasure (ParseDefinition fuel prec σ).2.1 ≤ pMeasure σ
      ∧ (0 < fuel →
          pMeasure (ParseDefinition fuel prec σ).2.1 ≤ pMeasure (advance σ)) := by
  intro fuel
  induction fuel with
  | zero => intro prec σ; exact ⟨le_refl _, fun h => absurd h (by omega)⟩
  | succ k ih =>
    intro prec σ
    have key : pMeasure (ParseDefinition (k+1) prec σ).2.1
        ≤ pMeasure (advance σ) := by
      simp only [ParseDefinition]
      rcases hp : ParsePrototype (advance σ) with ⟨r1, σ2, d1⟩
      have h1 : pMeasure σ2 ≤ pMeasure (advance σ) := by
        have := ParsePrototype_measure (advance σ); rw [hp] at this; exact this
      cases r1 with
      | ok proto =>
        dsimp only
        rcases hd : ParseDefinition k prec σ2 with ⟨r2, σ3, d2⟩
        have h2 : pMeasure σ3 ≤ pMeasure σ2 := by
          have := (ih prec σ2).1; rw [hd] at this; exact this
        cases r2 <;> dsimp only <;> omega
      | fail => dsimp only; exact h1
      | out => dsimp only; exact h1
    exact ⟨le_trans key (pMeasure_advance_le σ), fun _ => key⟩

/-- The inner recursive `ParseDefinition()` call at line 333 can never
succeed: every branch of `ParseDefinition` itself answers failure (or runs
out of fuel), because its success would require the ill-typed inner success
branch — the counterpart in the embedding of the fact that the source line does
not even type-check as a `FunctionAST`-to-`ExprAST` conversion. -/
theorem ParseDefinition_never_ok (fuel : Nat) (prec : PrecTab) (σ : PState) :
    (ParseDefinition fuel prec σ).1.isOk = false := by
  cases fuel with
  | zero => rfl
  | succ k =>
    simp only [ParseDefinition]
    rcases hp : ParsePrototype (advance σ) with ⟨r1, σ2, d1⟩
    cases r1 with
    | ok proto =>
      dsimp only
      rcases hd : ParseDefinition k prec σ2 with ⟨r2, σ3, d2⟩
      cases r2 <;> rfl
    | fail => rfl
    | out => rfl

theorem driverFuel_pos (σ : PState) : 0 < driverFuel σ := by
  unfold driverFuel
  omega

theorem HandleDefinition_measure (prec : PrecTab) (σ : PState)
    (h : σ.cur ≠ .eofT) : pMeasure (HandleDefinition prec σ) < pMeasure σ := by
  have hadv := pMeasure_advance_lt σ h
  have hkey := (ParseDefinition_measure (driverFuel σ) prec σ).2 (driverFuel_pos σ)
  unfold HandleDefinition
  rcases hd : ParseDefinition (driverFuel σ) prec σ with ⟨r, σ1, d⟩
  rw [hd] at hkey
  have hkey1 : pMeasure σ1 ≤ pMeasure (advance σ) := hkey
  have hle := pMeasure_advance_le σ1
  cases r with
  | ok f => dsimp only; omega
  | fail => dsimp only; omega
  | out => dsimp only; omega

theorem HandleExtern_measure (σ : PState) (h : σ.cur ≠ .eofT) :
    pMeasure (HandleExtern σ) < pMeasure σ := by
  have hadv := pMeasure_advance_lt σ h
  unfold HandleExtern ParseExtern
  rcases hp : ParsePrototype (advance σ) with ⟨r, σ1, d⟩
  have h1 : pMeasure σ1 ≤ pMeasure (advance σ) := by
    have := ParsePrototype_measure (advance σ); rw [hp] at this; exact this
  have hle := pMeasure_advance_le σ1
  cases r with
  | ok p => dsimp only; omega
  | fail => dsimp only; omega
  | out => dsimp only; omega

theorem HandleTopLevelExpression_measure (prec : PrecTab) (σ : PState)
    (h : σ.cur ≠ .eofT) :
    pMeasure (HandleTopLevelExpression prec σ) < pMeasure σ := by
  have hadv := pMeasure_advance_lt σ h
  unfold HandleTopLevelExpression ParseTopLevelExpr
  rcases he : ParseExpression (driverFuel σ) prec σ with ⟨r, σ1, d⟩
  rcases (parser_measure (driverFuel σ)).2.2.2.2.2 prec σ with hlt | ⟨heq, hok⟩
  · rw [he] at hlt
    have hlt1 : pMeasure σ1 < pMeasure σ := hlt
    have hle := pMeasure_advance_le σ1
    cases r with
    | ok e => dsimp only; omega
    | fail => dsimp only; omega
    | out => dsimp only; omega
  · rw [he] at heq hok
    have heq1 : σ1 = σ := heq
    cases r with
    | ok e => simp [PRes.isOk] at hok
    | fail => dsimp only; rw [heq1]; exact hadv
    | out => dsimp only; rw [heq1]; exact hadv

theorem MainLoop_terminates :
    ∀ (fuel : Nat) (prec : PrecTab) (σ : PState), pMeasure σ < fuel →
      ∃ σf, MainLoop fuel prec σ = some σf ∧ σf.cur = .eofT := by
  intro fuel
  induction fuel with
  | zero => intro prec σ h; exact absurd h (Nat.not_lt_zero _)
  | succ k ih =>
    intro prec σ h
    by_cases h1 : σ.cur = .eofT
    · exact ⟨σ, by simp [MainLoop, h1], h1⟩
    · simp only [MainLoop, if_neg h1]
      by_cases h2 : σ.cur = .punct ';'
      · rw [if_pos h2]
        have := pMeasure_advance_lt σ h1
        exact ih prec (advance σ) (by omega)
      · rw [if_neg h2]
        by_cases h3 : σ.cur = .kwDef
        · rw [if_pos h3]
          have := HandleDefinition_measure prec σ h1
          exact ih prec _ (by omega)
        · rw [if_neg h3]
          by_cases h4 : σ.cur = .kwExtern
          · rw [if_pos h4]
            have := HandleExtern_measure σ h1
            exact ih prec _ (by omega)
          · rw [if_neg h4]
            have := HandleTopLevelExpression_measure prec σ h1
            exact ih prec _ (by omega)

/-- C5: first three conjuncts — whenever a top-level parse fails (returns no
node), the state left by the corresponding handler is exactly one `GetNextToken`
advance past wherever the failed parse stopped, and the loop then continues
(Ready state).  Fourth conjunct — starting from any state, `MainLoop` with
any fuel beyond the measure of the state reaches the EndOfInput exit (the
only return), so on every finite input the driver makes forward progress and
never retries a failing construct unboundedly. -/
theorem c5_driver_single_token_recovery_and_progress :
    (∀ (prec : PrecTab) (σ : PState),
        (ParseDefinition (driverFuel σ) prec σ).1.isOk = false →
        HandleDefinition prec σ
          = advance (ParseDefinition (driverFuel σ) prec σ).2.1)
    ∧ (∀ σ : PState, (ParseExtern σ).1.isOk = false →
        HandleExtern σ = advance (ParseExtern σ).2.1)
    ∧ (∀ (prec : PrecTab) (σ : PState),
        (ParseTopLevelExpr (driverFuel σ) prec σ).1.isOk = false →
        HandleTopLevelExpression prec σ
          = advance (ParseTopLevelExpr (driverFuel σ) prec σ).2.1)
    ∧ (∀ (prec : PrecTab) (σ : PState) (fuel : Nat), pMeasure σ < fuel →
        ∃ σf, MainLoop fuel prec σ = some σf ∧ σf.cur = .eofT) := by
  refine ⟨?_, ?_, ?_, fun prec σ fuel h => MainLoop_terminates fuel prec σ h⟩
  · intro prec σ hok
    unfold HandleDefinition
    rcases hd : ParseDefinition (driverFuel σ) prec σ with ⟨r, σ1, d⟩
    rw [hd] at hok
    cases r with
    | ok f => simp [PRes.isOk] at hok
    | fail => rfl
    | out => rfl
  · intro σ hok
    unfold HandleExtern
    rcases hd : ParseExtern σ with ⟨r, σ1, d⟩
    rw [hd] at hok
    cases r with
    | ok p => simp [PRes.isOk] at hok
    | fail => rfl
    | out => rfl
  · intro prec σ hok
    unfold HandleTopLevelExpression
    rcases ht : ParseTopLevelExpr (driverFuel σ) prec σ with ⟨r, σ1, d⟩
    rw [ht] at hok
    cases r with
    | ok f => simp [PRes.isOk] at hok
    | fail => rfl
    | out => rfl

/-- Witness for C5: a failing `def` parse (stream holding only the `def`
keyword) makes the handler advance exactly one token past the failed parse. -/
theorem c5_witness :
    HandleDefinition [] ⟨.kwDef, []⟩
      = advance (ParseDefinition (driverFuel ⟨.kwDef, []⟩) [] ⟨.kwDef, []⟩).2.1 :=
  c5_driver_single_token_recovery_and_progress.1 [] ⟨.kwDef, []⟩ (by decide)

/-! ## Diagnostics discipline (for C6)

`DiagSpec` captures the error-reporting policy of the source: a successful parse
prints nothing, a failed parse has printed exactly one line (emitted by the
`LogError`/`LogErrorP` call at the first violated expectation), and every
enclosing level forwards a failure without printing again. -/

def DiagSpec {α : Type} (out : PRes α × PState × List Diag) : Prop :=
  (out.1.isOk = true → out.2.2 = [])
  ∧ (out.1 = .fail → out.2.2.length = 1)
  ∧ (out.1 = .out → out.2.2 = [])

theorem diagSpec_ok {α : Type} (a : α) (σ : PState) : DiagSpec (.ok a, σ, []) :=
  ⟨fun _ => rfl, fun h => by simp at h, fun h => by simp at h⟩

theorem diagSpec_fail_one {α : Type} (σ : PState) (g : Diag) :
    DiagSpec ((.fail : PRes α), σ, [g]) :=
  ⟨fun h => by simp [PRes.isOk] at h, fun _ => rfl, fun h => by simp at h⟩

theorem diagSpec_out {α : Type} (σ : PState) :
    DiagSpec ((.out : PRes α), σ, []) :=
  ⟨fun h => by simp [PRes.isOk] at h, fun h => by simp at h, fun _ => rfl⟩

/-- Forwarding a failure across a result type (a failed sub-parse aborting
an enclosing parse of another node kind) preserves the discipline. -/
theorem diagSpec_fail_of {α β : Type} {σ : PState} {d : List Diag}
    (h : DiagSpec ((.fail : PRes α), σ, d)) :
    DiagSpec ((.fail : PRes β), σ, d) :=
  ⟨fun hh => by simp [PRes.isOk] at hh, fun _ => h.2.1 rfl,
   fun hh => by simp at hh⟩

theorem diagSpec_out_of {α β : Type} {σ : PState} {d : List Diag}
    (h : DiagSpec ((.out : PRes α), σ, d)) :
    DiagSpec ((.out : PRes β), σ, d) :=
  ⟨fun hh => by simp [PRes.isOk] at hh, fun hh => by simp at hh,
   fun _ => h.2.2 rfl⟩

/-- Every expression-level parse function obeys the diagnostics discipline,
for every fuel, table and state. -/
theorem parser_diag :
    ∀ fuel : Nat,
      (∀ (prec : PrecTab) (exprPrec : Int) (lhs : Expr) (σ : PState),
        DiagSpec (ParseBinOpRHS fuel prec exprPrec lhs σ))
    ∧ (∀ (prec : PrecTab) (args : List Expr) (σ : PState),
        DiagSpec (ParseCallArgs fuel prec args σ))
    ∧ (∀ (prec : PrecTab) (σ : PState), DiagSpec (ParseParenExpr fuel prec σ))
    ∧ (∀ (prec : PrecTab) (σ : PState),
        DiagSpec (ParseIdentifierExpr fuel prec σ))
    ∧ (∀ (prec : PrecTab) (σ : PState), DiagSpec (ParsePrimary fuel prec σ))
    ∧ (∀ (prec : PrecTab) (σ : PState),
        DiagSpec (ParseExpression fuel prec σ)) := by
  intro fuel
  induction fuel with
  | zero =>
    exact ⟨fun prec ep lhs σ => diagSpec_out σ,
           fun prec args σ => diagSpec_out σ,
           fun prec σ => diagSpec_out σ,
           fun prec σ => diagSpec_out σ,
           fun prec σ => diagSpec_out σ,
           fun prec σ => diagSpec_out σ⟩
  | succ fuel ih =>
    obtain ⟨ihB, ihA, ihP, ihI, ihPr, ihE⟩ := ih
    refine ⟨?_, ?_, ?_, ?_, ?_, ?_⟩
    · -- ParseBinOpRHS
      intro prec ep lhs σ
      simp only [ParseBinOpRHS]
      split
      · exact diagSpec_ok lhs σ
      · rcases hp : ParsePrimary fuel prec σ with ⟨r1, σ1, d1⟩
        have hdp := ihPr prec σ
        rw [hp] at hdp
        cases r1 with
        | ok rhs =>
          have hd1 : d1 = [] := hdp.1 rfl
          subst hd1
          dsimp only
          split
          · rcases hb1 :
                ParseBinOpRHS fuel prec (GetTokPrecedence prec σ.cur + 1) rhs σ1
              with ⟨r2, σ2, d2⟩
            have hdb := ihB prec (GetTokPrecedence prec σ.cur + 1) rhs σ1
            rw [hb1] at hdb
            cases r2 with
            | ok rhs2 =>
              have hd2 : d2 = [] := hdb.1 rfl
              subst hd2
              dsimp only
              rcases hb2 :
                  ParseBinOpRHS fuel prec ep (.binary (tokCh σ.cur) lhs rhs2) σ2
                with ⟨r3, σ3, d3⟩
              have hdb2 := ihB prec ep (.binary (tokCh σ.cur) lhs rhs2) σ2
              rw [hb2] at hdb2
              dsimp only
              simpa using hdb2
            | fail => dsimp only; simpa using hdb
            | out => dsimp only; simpa using hdb
          · rcases hb :
                ParseBinOpRHS fuel prec ep (.binary (tokCh σ.cur) lhs rhs) σ1
              with ⟨r2, σ2, d2⟩
            have hdb := ihB prec ep (.binary (tokCh σ.cur) lhs rhs) σ1
            rw [hb] at hdb
            dsimp only
            simpa using hdb
        | fail => dsimp only; exact hdp
        | out => dsimp only; exact hdp
    · -- ParseCallArgs
      intro prec args σ
      simp only [ParseCallArgs]
      rcases he : ParseExpression fuel prec σ with ⟨r1, σ1, d1⟩
      have hde := ihE prec σ
      rw [he] at hde
      cases r1 with
      | ok e =>
        have hd1 : d1 = [] := hde.1 rfl
        subst hd1
        dsimp only
        split
        · exact diagSpec_ok _ _
        · split
          · simpa using diagSpec_fail_one σ1 Diag.expectedRParenOrComma
          · rcases ha : ParseCallArgs fuel prec (args ++ [e]) (advance σ1)
              with ⟨r2, σ2, d2⟩
            have hda := ihA prec (args ++ [e]) (advance σ1)
            rw [ha] at hda
            dsimp only
            simpa using hda
      | fail => dsimp only; exact diagSpec_fail_of hde
      | out => dsimp only; exact diagSpec_out_of hde
    · -- ParseParenExpr
      intro prec σ
      simp only [ParseParenExpr]
      rcases he : ParseExpression fuel prec (advance σ) with ⟨r1, σ2, d1⟩
      have hde := ihE prec (advance σ)
      rw [he] at hde
      cases r1 with
      | ok v =>
        have hd1 : d1 = [] := hde.1 rfl
        subst hd1
        dsimp only
        split
        · exact diagSpec_ok _ _
        · simpa using diagSpec_fail_one σ2 Diag.expectedRParen
      | fail => dsimp only; exact hde
      | out => dsimp only; exact hde
    · -- ParseIdentifierExpr
      intro prec σ
      simp only [ParseIdentifierExpr]
      split
      · exact diagSpec_ok _ _
      · split
        · exact diagSpec_ok _ _
        · rcases ha : ParseCallArgs fuel prec [] (advance (advance σ))
            with ⟨r1, σ3, d1⟩
          have hda := ihA prec [] (advance (advance σ))
          rw [ha] at hda
          cases r1 with
          | ok args2 =>
            dsimp only
            exact ⟨fun _ => hda.1 rfl, fun h => by simp at h,
                   fun h => by simp at h⟩
          | fail => dsimp only; exact diagSpec_fail_of hda
          | out => dsimp only; exact diagSpec_out_of hda
    · -- ParsePrimary
      intro prec σ
      simp only [ParsePrimary]
      split
      · exact ihI prec σ
      · simp only [ParseNumberExpr]
        exact diagSpec_ok _ _
      · exact ihP prec σ
      · exact diagSpec_fail_one σ Diag.unknownTokenExpectingExpr
    · -- ParseExpression
      intro prec σ
      simp only [ParseExpression]
      rcases hp : ParsePrimary fuel prec σ with ⟨r1, σ1, d1⟩
      have hdp := ihPr prec σ
      rw [hp] at hdp
      cases r1 with
      | ok lhs =>
        have hd1 : d1 = [] := hdp.1 rfl
        subst hd1
        dsimp only
        rcases hb : ParseBinOpRHS fuel prec 0 lhs σ1 with ⟨r2, σ2, d2⟩
        have hdb := ihB prec 0 lhs σ1
        rw [hb] at hdb
        dsimp only
        simpa using hdb
      | fail => dsimp only; exact hdp
      | out => dsimp only; exact hdp

theorem ParsePrototype_diag (σ : PState) : DiagSpec (ParsePrototype σ) := by
  simp only [ParsePrototype]
  split
  · split
    · exact diagSpec_fail_one _ _
    · rcases hl : protoArgsLoop [] (advance σ).rest with ⟨argNames, σ2⟩
      dsimp only
      split
      · exact diagSpec_fail_one _ _
      · exact diagSpec_ok _ _
  · exact diagSpec_fail_one _ _

theorem ParseDefinition_diag :
    ∀ (fuel : Nat) (prec : PrecTab) (σ : PState),
      DiagSpec (ParseDefinition fuel prec σ) := by
  intro fuel
  induction fuel with
  | zero => intro prec σ; exact diagSpec_out σ
  | succ k ih =>
    intro prec σ
    simp only [ParseDefinition]
    rcases hp : ParsePrototype (advance σ) with ⟨r1, σ2, d1⟩
    have hdp := ParsePrototype_diag (advance σ)
    rw [hp] at hdp
    cases r1 with
    | ok proto =>
      have hd1 : d1 = [] := hdp.1 rfl
      subst hd1
      dsimp only
      rcases hd : ParseDefinition k prec σ2 with ⟨r2, σ3, d2⟩
      have hdd := ih prec σ2
      have hno := ParseDefinition_never_ok k prec σ2
      rw [hd] at hdd hno
      cases r2 with
      | ok f => simp [PRes.isOk] at hno
      | fail => dsimp only; simpa using hdd
      | out => dsimp only; simpa using hdd
    | fail => dsimp only; exact diagSpec_fail_of hdp
    | out => dsimp only; exact diagSpec_out_of hdp

theorem ParseExtern_diag (σ : PState) : DiagSpec (ParseExtern σ) :=
  ParsePrototype_diag (advance σ)

theorem ParseTopLevelExpr_diag (fuel : Nat) (prec : PrecTab) (σ : PState) :
    DiagSpec (ParseTopLevelExpr fuel prec σ) := by
  unfold ParseTopLevelExpr
  rcases he : ParseExpression fuel prec σ with ⟨r1, σ1, d1⟩
  have hde := (parser_diag fuel).2.2.2.2.2 prec σ
  rw [he] at hde
  cases r1 with
  | ok e =>
    dsimp only
    exact ⟨fun _ => hde.1 rfl, fun h => by simp at h, fun h => by simp at h⟩
  | fail => dsimp only; exact diagSpec_fail_of hde
  | out => dsimp only; exact diagSpec_out_of hde

/-- C6: for each of the three top-level constructs (definition, extern, bare
expression), whatever the fuel, the precedence table and the state: a failed
parse has emitted exactly one diagnostic line (the one printed at the first
violated expectation), and a successful parse has emitted none — every
enclosing level only ever forwards a failure, it never adds a line
(`parser_diag` states the same discipline for every inner expression-parsing
level). -/
theorem c6_exactly_one_diagnostic_per_failed_parse :
    ∀ (fuel : Nat) (prec : PrecTab) (σ : PState),
      ((ParseDefinition fuel prec σ).1 = .fail →
          (ParseDefinition fuel prec σ).2.2.length = 1)
      ∧ ((ParseDefinition fuel prec σ).1.isOk = true →
          (ParseDefinition fuel prec σ).2.2 = [])
      ∧ ((ParseExtern σ).1 = .fail → (ParseExtern σ).2.2.length = 1)
      ∧ ((ParseExtern σ).1.isOk = true → (ParseExtern σ).2.2 = [])
      ∧ ((ParseTopLevelExpr fuel prec σ).1 = .fail →
          (ParseTopLevelExpr fuel prec σ).2.2.length = 1)
      ∧ ((ParseTopLevelExpr fuel prec σ).1.isOk = true →
          (ParseTopLevelExpr fuel prec σ).2.2 = []) := by
  intro fuel prec σ
  exact ⟨(ParseDefinition_diag fuel prec σ).2.1,
         (ParseDefinition_diag fuel prec σ).1,
         (ParseExtern_diag σ).2.1, (ParseExtern_diag σ).1,
         (ParseTopLevelExpr_diag fuel prec σ).2.1,
         (ParseTopLevelExpr_diag fuel prec σ).1⟩

/-- Witness for C6: an extern whose stream ends right after the keyword
fails with exactly one diagnostic. -/
theorem c6_witness :
    (ParseExtern ⟨.kwExtern, []⟩).2.2.length = 1 :=
  (c6_exactly_one_diagnostic_per_failed_parse 16 [] ⟨.kwExtern, []⟩).2.2.1
    (by decide)

end Toy
